import Mathlib

/-!
Verification of `rowts_bugfixer.py` (Rowts autofix tool).

The file embeds, as executable Lean definitions:
  * the two `similarity` implementations selected at import time
    (`Levenshtein.ratio`, and the fallback `difflib.SequenceMatcher.ratio`),
  * the utility functions `run_cmd`, `find_python_files`, `read_file`,
    `write_file` (with a faithful model of CPython UTF-8 encode / decode
    with the `ignore` error handler),
  * the repair-core components (Diagnostic Parser, Similarity Resolver,
    Patch Applier, Repair Orchestrator), which are absent from the
    truncated source and are therefore modelled from the specification.

Theorems about these definitions settle the specification claims.
-/

namespace Rowts

/-! ## difflib.SequenceMatcher (CPython) embedding

The fallback branch of the source is
`def similarity(a, b): return SequenceMatcher(None, a, b).ratio()`.
`SequenceMatcher` with `isjunk=None` has an empty junk set, so the two
junk-extension loops of `find_longest_match` are no-ops and are omitted;
the `autojunk` purge of popular elements (active when `len(b) >= 200`)
is kept.  `ratio()` sums the sizes of `get_matching_blocks()` (the
sort/merge step and the terminal zero-size sentinel of
`get_matching_blocks` do not change that sum) and divides by the total
length. -/

/-- Contiguous slice `l[s : s+n]` of a list (Python slice semantics). -/
def sub (l : List Char) (s n : Nat) : List Char :=
  (l.drop s).take n

/-- Sorted list of the positions of `c` in `b`: the entry `b2j[c]` that
CPython builds by appending indices in order (before the junk purge). -/
def charIndices (b : List Char) (c : Char) : List Nat :=
  (List.range b.length).filter (fun j => b.getD j 'a' = c)

/-- CPython `__chain_b` autojunk test: with `autojunk=True`, an element is
purged from `b2j` when `len(b) >= 200` and it occurs more than
`len(b) // 100 + 1` times. -/
def isPopular (b : List Char) (c : Char) : Bool :=
  decide (200 ≤ b.length) && decide (b.length / 100 + 1 < b.count c)

/-- The `b2j` mapping of `SequenceMatcher` (with the autojunk purge). -/
def b2j (b : List Char) (c : Char) : List Nat :=
  if isPopular b c then [] else charIndices b c

/-- Inner loop of `find_longest_match` for one row `i`: walk the position
list `b2j[a[i]]`, skipping `j < blo` (`continue`), stopping at
`j >= bhi` (`break`), building the new suffix-length table and updating
the running best `(besti, bestj, bestsize)` exactly as the CPython code
`k = newj2len[j] = j2len.get(j-1, 0) + 1` does (`j2len.get(-1, 0)` is
`0`, hence the `j = 0` case). -/
def procJs (blo bhi i : Nat) (j2len : Nat → Nat) :
    List Nat → ((Nat × Nat × Nat) × (Nat → Nat)) → ((Nat × Nat × Nat) × (Nat → Nat))
  | [], st => st
  | j :: js, (best, nj) =>
    if j < blo then procJs blo bhi i j2len js (best, nj)
    else if bhi ≤ j then (best, nj)
    else
      let k := (if j = 0 then 0 else j2len (j - 1)) + 1
      let nj2 : Nat → Nat := fun j2 => if j2 = j then k else nj j2
      let best2 := if best.2.2 < k then (i + 1 - k, j + 1 - k, k) else best
      procJs blo bhi i j2len js (best2, nj2)

/-- Outer loop of `find_longest_match`: rows `i = alo, ..., ahi - 1`
(`n` is the remaining row count), threading the suffix-length table. -/
def dpLoop (a b : List Char) (blo bhi : Nat) :
    Nat → Nat → (Nat → Nat) → (Nat × Nat × Nat) → (Nat × Nat × Nat)
  | 0, _, _, best => best
  | n + 1, i, j2len, best =>
    let st := procJs blo bhi i j2len (b2j b (a.getD i 'a')) (best, fun _ => 0)
    dpLoop a b blo bhi n (i + 1) st.2 st.1

/-- Backward extension loop of `find_longest_match` (the non-junk one;
the junk set is empty here).  `f` is fuel, instantiated so that it never
runs out (`besti` decreases towards `alo`). -/
def extendBack (a b : List Char) (alo blo : Nat) :
    Nat → Nat → Nat → Nat → Nat × Nat × Nat
  | 0, bi, bj, bs => (bi, bj, bs)
  | f + 1, bi, bj, bs =>
    if alo < bi ∧ blo < bj ∧ a.getD (bi - 1) 'a' = b.getD (bj - 1) 'a' then
      extendBack a b alo blo f (bi - 1) (bj - 1) (bs + 1)
    else (bi, bj, bs)

/-- Forward extension loop of `find_longest_match` (the non-junk one). -/
def extendFwd (a b : List Char) (ahi bhi : Nat) :
    Nat → Nat → Nat → Nat → Nat × Nat × Nat
  | 0, bi, bj, bs => (bi, bj, bs)
  | f + 1, bi, bj, bs =>
    if bi + bs < ahi ∧ bj + bs < bhi ∧ a.getD (bi + bs) 'a' = b.getD (bj + bs) 'a' then
      extendFwd a b ahi bhi f bi bj (bs + 1)
    else (bi, bj, bs)

/-- The full `SequenceMatcher.find_longest_match(alo, ahi, blo, bhi)`. -/
def findLongestMatch (a b : List Char) (alo ahi blo bhi : Nat) : Nat × Nat × Nat :=
  let d := dpLoop a b blo bhi (ahi - alo) alo (fun _ => 0) (alo, blo, 0)
  let e := extendBack a b alo blo d.1 d.1 d.2.1 d.2.2
  extendFwd a b ahi bhi (ahi - (e.1 + e.2.2)) e.1 e.2.1 e.2.2

/-- The recursion of `SequenceMatcher.get_matching_blocks` (CPython runs it
with an explicit work queue over disjoint windows; the collection of
nonempty blocks produced is the same).  The guard mirrors `if k:`; the two
extra conjuncts `alo ≤ i` and `i + k ≤ ahi` are invariants of
`find_longest_match` (proved below in `flm_spec`), so they never cut the
recursion short.  The recursion is driven by a fuel argument so that the
definition is structurally recursive (and hence computable by the kernel);
the window width `ahi - alo` strictly decreases at each call, so the fuel
chosen in `matchingBlocks` never runs out (`matchingBlocksF_irrel` below
makes this precise). -/
def matchingBlocksF (a b : List Char) : Nat → Nat → Nat → Nat → Nat → List (Nat × Nat × Nat)
  | 0, _, _, _, _ => []
  | fuel + 1, alo, ahi, blo, bhi =>
    match findLongestMatch a b alo ahi blo bhi with
    | (i, j, k) =>
      if k ≠ 0 ∧ alo ≤ i ∧ i + k ≤ ahi then
        matchingBlocksF a b fuel alo i blo j ++
          (i, j, k) :: matchingBlocksF a b fuel (i + k) ahi (j + k) bhi
      else []

/-- The blocks of `SequenceMatcher.get_matching_blocks` (as the plain recursion over
windows, with ample fuel). -/
def matchingBlocks (a b : List Char) (alo ahi blo bhi : Nat) : List (Nat × Nat × Nat) :=
  matchingBlocksF a b (ahi - alo + 1) alo ahi blo bhi

/-- Total size of the matching blocks: the `matches` value summed by
`SequenceMatcher.ratio` (the sentinel `(la, lb, 0)` block and the
adjacent-block merge of `get_matching_blocks` leave this sum unchanged). -/
def seqMatches (a b : List Char) : Nat :=
  ((matchingBlocks a b 0 a.length 0 b.length).map (fun r => r.2.2)).sum

/-- CPython `difflib._calculate_ratio`: `2.0 * matches / length` guarded by
`if length`, else `1.0`. -/
def calculateRatio (m tot : Nat) : ℚ :=
  if tot ≠ 0 then 2 * (m : ℚ) / (tot : ℚ) else 1

/-- The value `SequenceMatcher(None, a, b).ratio()`: the fallback `similarity`. -/
def similaritySM (a b : String) : ℚ :=
  calculateRatio (seqMatches a.data b.data) (a.data.length + b.data.length)

/-! ## Levenshtein.ratio embedding

The preferred branch of `similarity` is `Levenshtein.ratio(a, b)`, which
python-Levenshtein computes as `(lensum - ldist) / lensum` (and `1.0` for
two empty strings), where `ldist` is the edit distance in which a
substitution costs 2 (so only insertions and deletions matter: the indel
distance, computed by the standard dynamic program). -/

/-- Helper realising the inner recursion of `indel` on the second list
(`ind_xs` is `indel xs`; `xslen` is `xs.length`). -/
def indelAux (ind_xs : List Char → Nat) (x : Char) (xslen : Nat) : List Char → Nat
  | [] => xslen + 1
  | y :: ys =>
    min (min (ind_xs (y :: ys) + 1) (indelAux ind_xs x xslen ys + 1))
      (ind_xs ys + if x = y then 0 else 2)

/-- Indel distance: the cost-2-substitution Levenshtein distance used by
`Levenshtein.ratio`, satisfying the standard recurrence
`indel (x::xs) (y::ys) =
   min (min (indel xs (y::ys) + 1) (indel (x::xs) ys + 1))
       (indel xs ys + if x = y then 0 else 2)`
(restated below as a `rfl` lemma, `indel_cons_cons`).  The nested-helper
formulation makes the definition structurally recursive. -/
def indel : List Char → List Char → Nat
  | [], ys => ys.length
  | x :: xs, ys => indelAux (indel xs) x xs.length ys

/-- The value `Levenshtein.ratio(a, b)`: the accelerated `similarity`. -/
def similarityLev (a b : String) : ℚ :=
  let lensum := a.data.length + b.data.length
  if lensum ≠ 0 then ((lensum - indel a.data b.data : Nat) : ℚ) / (lensum : ℚ) else 1

/-! ## Longest common subsequence (reference quantity for the proofs) -/

/-- Helper realising the inner recursion of `lcsLen` on the second list
(`lcs_xs` is `lcsLen xs`). -/
def lcsAux (lcs_xs : List Char → Nat) (x : Char) : List Char → Nat
  | [] => 0
  | y :: ys =>
    if x = y then lcs_xs ys + 1
    else max (lcs_xs (y :: ys)) (lcsAux lcs_xs x ys)

/-- Length of a longest common subsequence, satisfying the standard
recurrence (restated below as `rfl` lemmas).  The nested-helper
formulation makes the definition structurally recursive. -/
def lcsLen : List Char → List Char → Nat
  | [], _ => 0
  | x :: xs, ys => lcsAux (lcsLen xs) x ys

/-- Invariant of the running best `(besti, bestj, bestsize)` during the
dynamic program: either still the initial `(alo, blo, 0)`, or a nonempty
match lying inside the window, ending at a row below `m`, whose two
slices are equal. -/
def BestC (a b : List Char) (alo blo bhi m : Nat) (t : Nat × Nat × Nat) : Prop :=
  t = (alo, blo, 0) ∨
    (t.2.2 ≠ 0 ∧ alo ≤ t.1 ∧ blo ≤ t.2.1 ∧ t.1 + t.2.2 ≤ m ∧ t.2.1 + t.2.2 ≤ bhi ∧
      sub a t.1 t.2.2 = sub b t.2.1 t.2.2)

/-- Invariant of a suffix-length table whose most recently processed row is
`i - 1`: a nonzero entry `f j` is the length of a common slice of `a`
ending at row `i - 1` and of `b` ending at column `j`, staying inside the
window on the left. -/
def TableC (a b : List Char) (alo blo i : Nat) (f : Nat → Nat) : Prop :=
  ∀ j, f j ≠ 0 → blo ≤ j ∧ f j ≤ j + 1 - blo ∧ f j ≤ i - alo ∧
    sub a (i - f j) (f j) = sub b (j + 1 - f j) (f j)

/-- Invariant carried by the two extension loops and holding of the final
result of `find_longest_match`. -/
def WState (a b : List Char) (alo ahi blo bhi : Nat) (t : Nat × Nat × Nat) : Prop :=
  alo ≤ t.1 ∧ blo ≤ t.2.1 ∧ (t.2.2 = 0 → t.1 = alo ∧ t.2.1 = blo) ∧
    (t.2.2 ≠ 0 → t.1 + t.2.2 ≤ ahi ∧ t.2.1 + t.2.2 ≤ bhi ∧
      sub a t.1 t.2.2 = sub b t.2.1 t.2.2)

/-! ## UTF-8 encode / decode (CPython semantics)

The source reads files with `read_text(encoding="utf-8", errors="ignore")`
and writes them with `write_text(content, encoding="utf-8")`.  Bytes are
modelled as `Nat` values (< 256).  A Lean `Char` is a unicode scalar
value, i.e. exactly a UTF-8-encodable code point.  `decodeStep` performs
CPython strict UTF-8 validation at the head of a byte list: it rejects
bad continuation bytes, overlong forms, surrogates and out-of-range
values, and reports how many bytes an error spans (the consumed valid
prefix of the bad sequence, as CPython error handlers see it); the
`ignore` handler simply drops those bytes and continues. -/

/-- Standard UTF-8 encoding of one scalar value (`str.encode("utf-8")`
per character). -/
def utf8EncodeChar (c : Char) : List Nat :=
  let n := c.toNat
  if n < 0x80 then [n]
  else if n < 0x800 then [0xC0 + n / 64, 0x80 + n % 64]
  else if n < 0x10000 then [0xE0 + n / 4096, 0x80 + n / 64 % 64, 0x80 + n % 64]
  else [0xF0 + n / 0x40000, 0x80 + n / 4096 % 64, 0x80 + n / 64 % 64, 0x80 + n % 64]

/-- Full-string UTF-8 encoding, `s.encode("utf-8")`. -/
def utf8Encode (s : String) : List Nat :=
  s.data.flatMap utf8EncodeChar

/-- One step of CPython strict UTF-8 decoding at the head of the byte
list: `(some c, n)` means the first `n` bytes decode to the scalar `c`;
`(none, n)` means the first `n` bytes form an invalid (or truncated)
sequence that the `ignore` error handler drops. -/
def decodeStep : List Nat → Option Char × Nat
  | [] => (none, 1)
  | b0 :: rest =>
    if b0 < 0x80 then (some (Char.ofNat b0), 1)
    else if b0 < 0xC2 then (none, 1)
    else if b0 < 0xE0 then
      match rest with
      | b1 :: _ =>
        if 0x80 ≤ b1 ∧ b1 < 0xC0 then
          (some (Char.ofNat ((b0 - 0xC0) * 64 + (b1 - 0x80))), 2)
        else (none, 1)
      | [] => (none, 1)
    else if b0 < 0xF0 then
      match rest with
      | b1 :: rest2 =>
        if (if b0 = 0xE0 then 0xA0 else 0x80) ≤ b1 ∧ b1 < (if b0 = 0xED then 0xA0 else 0xC0) then
          match rest2 with
          | b2 :: _ =>
            if 0x80 ≤ b2 ∧ b2 < 0xC0 then
              (some (Char.ofNat ((b0 - 0xE0) * 4096 + (b1 - 0x80) * 64 + (b2 - 0x80))), 3)
            else (none, 2)
          | [] => (none, 2)
        else (none, 1)
      | [] => (none, 1)
    else if b0 < 0xF5 then
      match rest with
      | b1 :: rest2 =>
        if (if b0 = 0xF0 then 0x90 else 0x80) ≤ b1 ∧ b1 < (if b0 = 0xF4 then 0x90 else 0xC0) then
          match rest2 with
          | b2 :: rest3 =>
            if 0x80 ≤ b2 ∧ b2 < 0xC0 then
              match rest3 with
              | b3 :: _ =>
                if 0x80 ≤ b3 ∧ b3 < 0xC0 then
                  (some (Char.ofNat
                    ((b0 - 0xF0) * 0x40000 + (b1 - 0x80) * 4096 + (b2 - 0x80) * 64 + (b3 - 0x80))), 4)
                else (none, 3)
              | [] => (none, 3)
            else (none, 2)
          | [] => (none, 2)
        else (none, 1)
      | [] => (none, 1)
    else (none, 1)

/-- UTF-8 decoding with `errors="ignore"`: decode scalar by scalar,
dropping the bytes of each invalid sequence.  Structured with a fuel
argument (the recursion consumes at least one byte per step, so fuel
equal to the byte count suffices). -/
def utf8DecodeIgnoreF : Nat → List Nat → List Char
  | 0, _ => []
  | _ + 1, [] => []
  | fuel + 1, b :: rest =>
    match decodeStep (b :: rest) with
    | (some c, n) => c :: utf8DecodeIgnoreF fuel (rest.drop (n - 1))
    | (none, n) => utf8DecodeIgnoreF fuel (rest.drop (n - 1))

/-- Full UTF-8 decoding with ignored errors, `bytes.decode("utf-8", errors="ignore")`. -/
def utf8DecodeIgnore (l : List Nat) : List Char :=
  utf8DecodeIgnoreF l.length l

/-- File-system model: optional byte content per path. -/
def FSb : Type := String → Option (List Nat)

/-- The source utility `read_file`: `path.read_text(encoding="utf-8", errors="ignore")`. -/
def read_file (fs : FSb) (p : String) : String :=
  String.mk (utf8DecodeIgnore ((fs p).getD []))

/-- The source utility `write_file`: `path.write_text(content, encoding="utf-8")`. -/
def write_file (fs : FSb) (p : String) (content : String) : FSb :=
  fun q => if q = p then some (utf8Encode content) else fs q

/-! ## run_cmd (source lines 57-71)

`run_cmd` logs the invocation at info level, runs the subprocess and
returns `(returncode, stdout, stderr)` with the captured streams
defaulted to `""` (`proc.stdout or ""`); a `FileNotFoundError` (missing
executable) is caught: a warning is logged and
`(127, "", "Command not found: <cmd[0]>")` is returned.  The outside
world is an `exec` oracle; `none` models the `FileNotFoundError` raise,
`some (rc, out, err)` a completed process whose captured streams may be
absent. -/

inductive LogLine where
  | info (msg : String)
  | debug (msg : String)
  | warning (msg : String)
  deriving Repr, DecidableEq

def ProcOutcome : Type := Option (Int × Option String × Option String)

def runCmd (exec : List String → ProcOutcome) (cmd : List String) :
    (Int × String × String) × List LogLine :=
  let execLog := LogLine.info ("EXEC: " ++ String.intercalate " " cmd)
  match exec cmd with
  | some (rc, o, e) =>
    ((rc, o.getD "", e.getD ""),
      [execLog, LogLine.debug ("OUT: " ++ o.getD ""), LogLine.debug ("ERR: " ++ e.getD "")])
  | none =>
    ((127, "", "Command not found: " ++ cmd.headD ""),
      [execLog, LogLine.warning ("Command not found: " ++ cmd.headD "")])

/-! ## find_python_files (source lines 73-74)

A filesystem path is modelled by its list of segments (`p.parts`).  The
input is the list of all entries under the root, as produced by a
recursive walk; `rglob("*.py")` keeps those whose final segment matches
the glob pattern `*.py`, and the comprehension then drops every path
having `venv`, `.venv` or `site-packages` among its segments (Python's
`not in`). -/

/-- The glob pattern `*.py` (fnmatch semantics: `*` matches any possibly
empty prefix, so a name matches exactly when it ends in `".py"`). -/
def matchesPyGlob (name : String) : Bool :=
  name.endsWith ".py"

/-- The listing `root.rglob("*.py")` over the given entries. -/
def rglobPy (entries : List (List String)) : List (List String) :=
  entries.filter (fun p => matchesPyGlob (p.getLastD ""))

/-- The source's list comprehension over `rglob`. -/
def find_python_files (entries : List (List String)) : List (List String) :=
  (rglobPy entries).filter
    (fun p => decide ("venv" ∉ p) && decide (".venv" ∉ p) && decide ("site-packages" ∉ p))

/-! ## Similarity Resolver

Modelled from the spec: the repair-heuristic core is missing from the
truncated source (the excerpt ends inside the tool runners), so the
Similarity Resolver is built from the specification, section 4.3:
rank candidates by descending score, ties broken by shorter
declared-line distance to the error line, then lexicographic identifier
order; keep the top five; accept the top candidate only if its score is
at least `0.80` and exceeds the second-best score by at least `0.05`
(with a single candidate there is no second-best to be confused with,
so only the absolute threshold applies). -/

structure Candidate where
  ident : String
  score : ℚ
  declaredLine : Nat
  deriving Repr, DecidableEq

/-- Distance from the candidate's declared line to the error line. -/
def lineDist (errLine : Nat) (c : Candidate) : Nat :=
  max c.declaredLine errLine - min c.declaredLine errLine

/-- Ranking order: higher score first, then closer declared line, then
identifier text. -/
def candBefore (errLine : Nat) (c1 c2 : Candidate) : Bool :=
  decide (c2.score < c1.score) ||
    (decide (c1.score = c2.score) &&
      (decide (lineDist errLine c1 < lineDist errLine c2) ||
        (decide (lineDist errLine c1 = lineDist errLine c2) && decide (c1.ident ≤ c2.ident))))

/-- Modelled from the spec: the top-k (k = 5) ranking. -/
def rank (errLine : Nat) (cands : List Candidate) : List Candidate :=
  (cands.mergeSort (candBefore errLine)).take 5

/-- Modelled from the spec: `resolve` — the double-threshold accept /
reject decision of the Similarity Resolver. -/
def resolve (errLine : Nat) (cands : List Candidate) : Option Candidate :=
  match rank errLine cands with
  | [] => none
  | [c] => if 4 / 5 ≤ c.score then some c else none
  | c1 :: c2 :: _ =>
    if 4 / 5 ≤ c1.score ∧ 1 / 20 ≤ c1.score - c2.score then some c1 else none

/-! ## Patch Applier

Modelled from the spec: `apply(patch)` is not in the truncated source;
per section 4.4 it re-reads the target file immediately before writing,
checks the recorded column span of the recorded line against
`old_text`, and on mismatch (stale diagnostics, or a vanished file)
returns `Skipped(stale)` without touching the file; on success it
substitutes the single token in place and rewrites the file. -/

structure Patch where
  filePath : String
  lineNumber : Nat
  colStart : Nat
  colEnd : Nat
  oldText : String
  newText : String
  deriving Repr, DecidableEq

inductive SkipReason where
  | stale
  deriving Repr, DecidableEq

inductive ApplyResult where
  | applied
  | skipped (r : SkipReason)
  deriving Repr, DecidableEq

/-- Text-level file system: content per path. -/
def FSt : Type := String → Option String

/-- Newline character. -/
def nl : Char := Char.ofNat 10

/-- Split a character list into lines at newline characters (the list of
lines of `content.split("\\n")`; always nonempty). -/
def splitLines : List Char → List (List Char)
  | [] => [[]]
  | c :: rest =>
    match splitLines rest with
    | [] => [[c]]
    | h :: t => if c = nl then [] :: h :: t else (c :: h) :: t

/-- Join lines back with newlines. -/
def joinLines : List (List Char) → List Char
  | [] => []
  | [l] => l
  | l :: l2 :: ls => l ++ nl :: joinLines (l2 :: ls)

/-- The span `[colStart, colEnd)` of (1-based) line `line` of `content`,
if the line exists. -/
def spanAt (content : String) (line col1 col2 : Nat) : Option String :=
  ((splitLines content.data).get? (line - 1)).map
    (fun l => String.mk ((l.drop col1).take (col2 - col1)))

/-- In-place single-token substitution at the recorded span (the rest of
the line and all other lines are preserved). -/
def replaceSpan (content : String) (line col1 col2 : Nat) (newText : String) : String :=
  String.mk (joinLines ((splitLines content.data).mapIdx (fun i l =>
    if i = line - 1 then l.take col1 ++ newText.data ++ l.drop col2 else l)))

/-- Modelled from the spec: `apply(patch)` with its freshness check. -/
def apply_patch (p : Patch) (fs : FSt) : ApplyResult × FSt :=
  match fs p.filePath with
  | none => (ApplyResult.skipped SkipReason.stale, fs)
  | some content =>
    if spanAt content p.lineNumber p.colStart p.colEnd = some p.oldText then
      (ApplyResult.applied,
        fun q => if q = p.filePath then
          some (replaceSpan content p.lineNumber p.colStart p.colEnd p.newText)
        else fs q)
    else (ApplyResult.skipped SkipReason.stale, fs)

/-! ## Diagnostic Parser

Modelled from the spec: the parser is not in the truncated source; per
section 4.1 it recognises the two message shapes
`NameError: name X is not defined` (X quoted) and
`AttributeError: T object has no attribute X` (T and X quoted), each
anchored to a `File "...", line N` context line immediately preceding it
in a standard traceback layout; anything else yields no diagnostic and
never an exception (every function below is total).  Matching is purely
textual, on character lists. -/

/-- A single-quote character (for the quoted identifiers of the two
error shapes). -/
def sq : String := String.mk [Char.ofNat 39]

inductive ErrKind where
  | nameError
  | attributeError
  deriving Repr, DecidableEq

structure Diagnostic where
  file : String
  line : Nat
  kind : ErrKind
  identifier : String
  deriving Repr, DecidableEq

/-- Identifier characters (the regex class `\\w`). -/
def isWordChar (c : Char) : Bool :=
  c.isAlphanum || c = Char.ofNat 95

/-- Index of the first occurrence of `pat` in a character list. -/
def findSub (pat : List Char) : List Char → Option Nat
  | [] => if pat = [] then some 0 else none
  | c :: rest =>
    if pat.isPrefixOf (c :: rest) then some 0
    else (findSub pat rest).map (· + 1)

/-- Parse `NameError: name X is not defined` (X quoted), returning the
identifier. -/
def parseNameError (s : String) : Option String :=
  let p1 := ("NameError: name " ++ sq).data
  let p2 := (sq ++ " is not defined").data
  if p1.isPrefixOf s.data ∧ p2.isSuffixOf s.data ∧ p1.length + p2.length ≤ s.data.length then
    let x := (s.data.drop p1.length).take (s.data.length - p1.length - p2.length)
    if x.all isWordChar ∧ x ≠ [] then some (String.mk x) else none
  else none

/-- Parse `AttributeError: T object has no attribute X` (T and X
quoted), returning the object type and the attribute. -/
def parseAttrError (s : String) : Option (String × String) :=
  let p1 := ("AttributeError: " ++ sq).data
  let mid := (sq ++ " object has no attribute " ++ sq).data
  if p1.isPrefixOf s.data ∧ sq.data.isSuffixOf s.data ∧
      p1.length + mid.length + 1 ≤ s.data.length then
    let body := (s.data.drop p1.length).take (s.data.length - p1.length - 1)
    match findSub mid body with
    | some i =>
      let t := body.take i
      let x := body.drop (i + mid.length)
      if t.all isWordChar ∧ x.all isWordChar ∧ t ≠ [] ∧ x ≠ [] then
        some (String.mk t, String.mk x)
      else none
    | none => none
  else none

/-- Value of a digit string. -/
def natOfDigits (ds : List Char) : Nat :=
  ds.foldl (fun n c => n * 10 + (c.toNat - 48)) 0

/-- Parse a traceback context line `File "path", line N[, in f]`
(leading indentation ignored). -/
def parseFileLine (s : String) : Option (String × Nat) :=
  let t := s.data.dropWhile (fun c => c = Char.ofNat 32)
  let pf := ("File \"").data
  let mid := ("\", line ").data
  if pf.isPrefixOf t then
    match findSub mid (t.drop pf.length) with
    | some i =>
      let path := (t.drop pf.length).take i
      let tail := (t.drop pf.length).drop (i + mid.length)
      let ds := tail.takeWhile Char.isDigit
      if ds ≠ [] then some (String.mk path, natOfDigits ds) else none
    | none => none
  else none

/-- Either of the two recognised error shapes. -/
def parseErrLine (s : String) : Option (ErrKind × String) :=
  match parseNameError s with
  | some x => some (ErrKind.nameError, x)
  | none =>
    match parseAttrError s with
    | some tx => some (ErrKind.attributeError, tx.2)
    | none => none

/-- The lines of a text blob. -/
def linesOf (text : String) : List String :=
  (splitLines text.data).map String.mk

/-- Modelled from the spec: the Diagnostic Parser.  A diagnostic is
produced at each line matching one of the two error shapes whose
immediately preceding line is a `File "...", line N` context line. -/
def parseTraceback (text : String) : List Diagnostic :=
  let ls := linesOf text
  (List.range ls.length).filterMap (fun i =>
    match i with
    | 0 => none
    | k + 1 =>
      match parseFileLine (ls.getD k ""), parseErrLine (ls.getD (k + 1) "") with
      | some fl, some kx => some (Diagnostic.mk fl.1 fl.2 kx.1 kx.2)
      | _, _ => none)

/-! ## Repair Orchestrator

Modelled from the spec: per sections 4.5 and 8, the orchestrator
processes diagnostics in order; for each it queries the scope index,
asks the resolver, and — only when `--yes` was given — applies the
patch; in dry-run mode (the default) it computes and reports the
would-be patch without writing anything. -/

structure OrchState where
  fs : FSt
  runlog : List String

def describeResult : ApplyResult → String
  | ApplyResult.applied => "applied"
  | ApplyResult.skipped SkipReason.stale => "skipped: stale"

/-- The single-token patch for a diagnostic and an accepted candidate. -/
def mkPatch (d : Diagnostic) (c : Candidate) : Patch :=
  Patch.mk d.file d.line 0 d.identifier.length d.identifier c.ident

/-- Modelled from the spec: handle one diagnostic
(resolve, then apply or report). -/
def processDiag (applyYes : Bool) (scope : Diagnostic → List Candidate)
    (st : OrchState) (d : Diagnostic) : OrchState :=
  match resolve d.line (scope d) with
  | some c =>
    if applyYes then
      let r := apply_patch (mkPatch d c) st.fs
      OrchState.mk r.2 (st.runlog ++ [describeResult r.1 ++ ": " ++ d.identifier])
    else
      OrchState.mk st.fs (st.runlog ++ ["would fix " ++ d.identifier ++ " -> " ++ c.ident])
  | none => OrchState.mk st.fs (st.runlog ++ ["no confident fix for " ++ d.identifier])

/-- Modelled from the spec: one orchestration pass over the parsed
diagnostics. -/
def orchestrate (applyYes : Bool) (scope : Diagnostic → List Candidate)
    (diags : List Diagnostic) (st : OrchState) : OrchState :=
  diags.foldl (processDiag applyYes scope) st

theorem indel_nil (ys : List Char) : indel [] ys = ys.length := rfl

theorem indel_cons_nil (x : Char) (xs : List Char) : indel (x :: xs) [] = xs.length + 1 := rfl

theorem indel_cons_cons (x y : Char) (xs ys : List Char) :
    indel (x :: xs) (y :: ys) =
      min (min (indel xs (y :: ys) + 1) (indel (x :: xs) ys + 1))
        (indel xs ys + if x = y then 0 else 2) := rfl

theorem lcsLen_nil (ys : List Char) : lcsLen [] ys = 0 := rfl

theorem lcsLen_cons_nil (x : Char) (xs : List Char) : lcsLen (x :: xs) [] = 0 := rfl

theorem lcsLen_cons_cons (x y : Char) (xs ys : List Char) :
    lcsLen (x :: xs) (y :: ys) =
      if x = y then lcsLen xs ys + 1
      else max (lcsLen xs (y :: ys)) (lcsLen (x :: xs) ys) := rfl

/-! ## Window and slice-equality invariants of `find_longest_match` -/

theorem sub_zero (a : List Char) (s : Nat) : sub a s 0 = [] := rfl

theorem sub_snoc (a : List Char) (s n : Nat) (h : s + n < a.length) :
    sub a s (n + 1) = sub a s n ++ [a.getD (s + n) 'a'] := by
  unfold sub
  rw [List.take_succ, List.getElem?_drop, List.getElem?_eq_getElem h,
    List.getD_eq_getElem a 'a' h]
  rfl

theorem sub_cons (a : List Char) (s n : Nat) (h : s < a.length) :
    sub a s (n + 1) = a.getD s 'a' :: sub a (s + 1) n := by
  unfold sub
  rw [List.drop_eq_getElem_cons h, List.take_succ_cons, List.getD_eq_getElem a 'a' h]

theorem sub_append (a : List Char) (s m n : Nat) :
    sub a s (m + n) = sub a s m ++ sub a (s + m) n := by
  unfold sub
  rw [List.take_add, List.drop_drop]

theorem sub_all (a : List Char) : sub a 0 a.length = a := by
  unfold sub
  rw [List.drop_zero, List.take_length]

theorem BestC_mono (a b : List Char) (alo blo bhi m m2 : Nat) (t : Nat × Nat × Nat)
    (h : m ≤ m2) (hb : BestC a b alo blo bhi m t) : BestC a b alo blo bhi m2 t := by
  rcases hb with h0 | ⟨h1, h2, h3, h4, h5, h6⟩
  · exact Or.inl h0
  · exact Or.inr ⟨h1, h2, h3, by omega, h5, h6⟩

theorem mem_b2j (b : List Char) (c : Char) (j : Nat) (h : j ∈ b2j b c) :
    b.getD j 'a' = c ∧ j < b.length := by
  unfold b2j at h
  split at h
  · simp at h
  · unfold charIndices at h
    have h2 := List.mem_filter.mp h
    exact ⟨of_decide_eq_true h2.2, List.mem_range.mp h2.1⟩

theorem procJs_inv (a b : List Char) (alo blo bhi i : Nat) (f : Nat → Nat)
    (hia : i < a.length) (hbb : bhi ≤ b.length) (hal : alo ≤ i)
    (hf : TableC a b alo blo i f) :
    ∀ js best nj,
      (∀ j ∈ js, b.getD j 'a' = a.getD i 'a') →
      BestC a b alo blo bhi (i + 1) best →
      TableC a b alo blo (i + 1) nj →
      BestC a b alo blo bhi (i + 1) (procJs blo bhi i f js (best, nj)).1 ∧
      TableC a b alo blo (i + 1) (procJs blo bhi i f js (best, nj)).2 := by
  intro js
  induction js with
  | nil =>
    intro best nj _ hbest hnj
    exact ⟨hbest, hnj⟩
  | cons j js ih =>
    intro best nj hc hbest hnj
    by_cases h1 : j < blo
    · simp only [procJs, if_pos h1]
      exact ih best nj (fun j2 hj2 => hc j2 (List.mem_cons_of_mem j hj2)) hbest hnj
    · by_cases h2 : bhi ≤ j
      · simp only [procJs, if_neg h1, if_pos h2]
        exact ⟨hbest, hnj⟩
      · have hblo : blo ≤ j := by omega
        have hjb : j < bhi := by omega
        have hcj : b.getD j 'a' = a.getD i 'a' := hc j (List.mem_cons_self j js)
        -- the new suffix length k and its properties
        set m := (if j = 0 then 0 else f (j - 1)) with hm
        have hm_le1 : m ≤ j - blo := by
          rw [hm]
          split
          · omega
          · rename_i hj0
            by_cases hfz : f (j - 1) = 0
            · omega
            · obtain ⟨hA, hB, _, _⟩ := hf (j - 1) hfz
              omega
        have hm_le2 : m ≤ i - alo := by
          rw [hm]
          split
          · omega
          · by_cases hfz : f (j - 1) = 0
            · omega
            · exact (hf (j - 1) hfz).2.2.1
        have hchars : sub a (i - m) (m + 1) = sub b (j - m) (m + 1) := by
          have hsnoc_a : sub a (i - m) (m + 1) = sub a (i - m) m ++ [a.getD i 'a'] := by
            have h3 : (i - m) + m = i := by omega
            have h4 : (i - m) + m < a.length := by omega
            rw [sub_snoc a (i - m) m h4, h3]
          have hsnoc_b : sub b (j - m) (m + 1) = sub b (j - m) m ++ [b.getD j 'a'] := by
            have h3 : (j - m) + m = j := by omega
            have h4 : (j - m) + m < b.length := by omega
            rw [sub_snoc b (j - m) m h4, h3]
          rw [hsnoc_a, hsnoc_b, hcj]
          by_cases hmz : m = 0
          · rw [hmz, sub_zero, sub_zero]
          · have hj0 : ¬ j = 0 := by
              intro hj0
              rw [hm, if_pos hj0] at hmz
              exact hmz rfl
            have hfz : ¬ f (j - 1) = 0 := by
              rw [hm, if_neg hj0] at hmz
              exact hmz
            have h5 := hf (j - 1) hfz
            have h6 : f (j - 1) = m := by rw [hm, if_neg hj0]
            rw [h6] at h5
            have h7 : (j - 1) + 1 - m = j - m := by omega
            rw [h7] at h5
            rw [h5.2.2.2]
        -- assemble the new table and best
        simp only [procJs, if_neg h1, if_neg h2]
        apply ih
        · exact fun j2 hj2 => hc j2 (List.mem_cons_of_mem j hj2)
        · -- new best
          unfold BestC
          simp only [← hm]
          split
          · dsimp only
            refine Or.inr ⟨by omega, by omega, by omega, by omega, by omega, ?_⟩
            have e1 : i + 1 - (m + 1) = i - m := by omega
            have e2 : j + 1 - (m + 1) = j - m := by omega
            simp only [e1, e2]
            exact hchars
          · exact hbest
        · -- new table
          unfold TableC
          intro j2 hj2
          simp only [← hm] at hj2
          by_cases hje : j2 = j
          · simp only [hje, eq_self_iff_true, if_true] at hj2
            simp only [← hm, hje, eq_self_iff_true, if_true]
            refine ⟨hblo, by omega, by omega, ?_⟩
            have e1 : i + 1 - (m + 1) = i - m := by omega
            have e2 : j + 1 - (m + 1) = j - m := by omega
            simp only [e1, e2]
            exact hchars
          · simp only [if_neg hje] at hj2
            simp only [← hm, if_neg hje]
            exact hnj j2 hj2

theorem dpLoop_inv (a b : List Char) (alo blo bhi ahi : Nat)
    (haa : ahi ≤ a.length) (hbb : bhi ≤ b.length) :
    ∀ n i f best, alo ≤ i → i + n ≤ ahi →
      TableC a b alo blo i f →
      BestC a b alo blo bhi i best →
      BestC a b alo blo bhi (i + n) (dpLoop a b blo bhi n i f best) := by
  intro n
  induction n with
  | zero =>
    intro i f best _ _ _ hbest
    simpa using hbest
  | succ n ih =>
    intro i f best hal hle hf hbest
    have hia : i < a.length := by omega
    have hrow := procJs_inv a b alo blo bhi i f hia hbb hal hf
      (b2j b (a.getD i 'a')) best (fun _ => 0)
      (fun j hj => (mem_b2j b (a.getD i 'a') j hj).1)
      (BestC_mono a b alo blo bhi i (i + 1) best (by omega) hbest)
      (fun j hj => absurd rfl hj)
    have hstep := ih (i + 1) (procJs blo bhi i f (b2j b (a.getD i 'a')) (best, fun _ => 0)).2
      (procJs blo bhi i f (b2j b (a.getD i 'a')) (best, fun _ => 0)).1
      (by omega) (by omega) hrow.2 hrow.1
    have he : i + 1 + n = i + (n + 1) := by omega
    rw [he] at hstep
    simpa only [dpLoop] using hstep

theorem BestC_WState (a b : List Char) (alo ahi blo bhi m : Nat) (t : Nat × Nat × Nat)
    (hm : m ≤ ahi) (h : BestC a b alo blo bhi m t) : WState a b alo ahi blo bhi t := by
  rcases h with h0 | ⟨h1, h2, h3, h4, h5, h6⟩
  · rw [h0]
    exact ⟨Nat.le_refl alo, Nat.le_refl blo, fun _ => ⟨rfl, rfl⟩, fun h => absurd rfl h⟩
  · exact ⟨h2, h3, fun hz => absurd hz h1, fun _ => ⟨by omega, h5, h6⟩⟩

theorem extendBack_inv (a b : List Char) (alo ahi blo bhi : Nat)
    (haa : ahi ≤ a.length) (hbb : bhi ≤ b.length) :
    ∀ f bi bj bs, WState a b alo ahi blo bhi (bi, bj, bs) →
      WState a b alo ahi blo bhi (extendBack a b alo blo f bi bj bs) := by
  intro f
  induction f with
  | zero => intro bi bj bs hw; exact hw
  | succ f ih =>
    intro bi bj bs hw
    obtain ⟨hw1, hw2, hw3, hw4⟩ := hw
    dsimp only at hw1 hw2 hw3 hw4
    simp only [extendBack]
    split
    · rename_i hcond
      obtain ⟨hc1, hc2, hc3⟩ := hcond
      have hbs : bs ≠ 0 := by
        intro hz
        have := (hw3 hz).1
        omega
      obtain ⟨he1, he2, he3⟩ := hw4 hbs
      apply ih
      unfold WState
      dsimp only
      refine ⟨by omega, by omega, by omega, fun _ => ⟨by omega, by omega, ?_⟩⟩
      have ha1 : bi - 1 < a.length := by omega
      have hb1 : bj - 1 < b.length := by omega
      have ea : sub a (bi - 1) (bs + 1) = a.getD (bi - 1) 'a' :: sub a bi bs := by
        have e := sub_cons a (bi - 1) bs ha1
        have e2 : bi - 1 + 1 = bi := by omega
        rw [e2] at e
        exact e
      have eb : sub b (bj - 1) (bs + 1) = b.getD (bj - 1) 'a' :: sub b bj bs := by
        have e := sub_cons b (bj - 1) bs hb1
        have e2 : bj - 1 + 1 = bj := by omega
        rw [e2] at e
        exact e
      rw [ea, eb, hc3, he3]
    · exact ⟨hw1, hw2, hw3, hw4⟩

theorem extendFwd_inv (a b : List Char) (alo ahi blo bhi : Nat)
    (haa : ahi ≤ a.length) (hbb : bhi ≤ b.length) :
    ∀ f bi bj bs, WState a b alo ahi blo bhi (bi, bj, bs) →
      WState a b alo ahi blo bhi (extendFwd a b ahi bhi f bi bj bs) := by
  intro f
  induction f with
  | zero => intro bi bj bs hw; exact hw
  | succ f ih =>
    intro bi bj bs hw
    obtain ⟨hw1, hw2, hw3, hw4⟩ := hw
    dsimp only at hw1 hw2 hw3 hw4
    simp only [extendFwd]
    split
    · rename_i hcond
      obtain ⟨hc1, hc2, hc3⟩ := hcond
      have hchars : sub a bi bs = sub b bj bs := by
        by_cases hbs : bs = 0
        · rw [hbs, sub_zero, sub_zero]
        · exact (hw4 hbs).2.2
      apply ih
      unfold WState
      dsimp only
      refine ⟨hw1, hw2, by omega, fun _ => ⟨by omega, by omega, ?_⟩⟩
      rw [sub_snoc a bi bs (by omega), sub_snoc b bj bs (by omega), hchars, hc3]
    · exact ⟨hw1, hw2, hw3, hw4⟩

/-- Correctness of `find_longest_match`: the returned block lies inside the
window and matches equal slices of `a` and `b`; an empty result is
`(alo, blo, 0)`. -/
theorem flm_spec (a b : List Char) (alo ahi blo bhi : Nat)
    (haa : ahi ≤ a.length) (hbb : bhi ≤ b.length) :
    WState a b alo ahi blo bhi (findLongestMatch a b alo ahi blo bhi) := by
  unfold findLongestMatch
  by_cases hwin : alo ≤ ahi
  · have hd : BestC a b alo blo bhi (alo + (ahi - alo))
        (dpLoop a b blo bhi (ahi - alo) alo (fun _ => 0) (alo, blo, 0)) :=
      dpLoop_inv a b alo blo bhi ahi haa hbb (ahi - alo) alo (fun _ => 0) (alo, blo, 0)
        (Nat.le_refl alo) (by omega) (fun j hj => absurd rfl hj) (Or.inl rfl)
    have hdw : WState a b alo ahi blo bhi
        (dpLoop a b blo bhi (ahi - alo) alo (fun _ => 0) (alo, blo, 0)) :=
      BestC_WState a b alo ahi blo bhi (alo + (ahi - alo)) _ (by omega) hd
    set d := dpLoop a b blo bhi (ahi - alo) alo (fun _ => 0) (alo, blo, 0) with hdd
    have hew : WState a b alo ahi blo bhi (extendBack a b alo blo d.1 d.1 d.2.1 d.2.2) := by
      apply extendBack_inv a b alo ahi blo bhi haa hbb
      simpa using hdw
    set e := extendBack a b alo blo d.1 d.1 d.2.1 d.2.2 with hee
    apply extendFwd_inv a b alo ahi blo bhi haa hbb
    simpa using hew
  · have h0 : ahi - alo = 0 := by omega
    rw [h0]
    simp only [dpLoop]
    have hback : extendBack a b alo blo alo alo blo 0 = (alo, blo, 0) := by
      cases halo : alo with
      | zero => rfl
      | succ n =>
        simp only [extendBack]
        rw [if_neg]
        intro hcond
        exact absurd hcond.1 (Nat.lt_irrefl _)
    rw [hback]
    have h1 : ahi - (alo + 0) = 0 := by omega
    rw [h1]
    exact ⟨Nat.le_refl alo, Nat.le_refl blo, fun _ => ⟨rfl, rfl⟩, fun h => absurd rfl h⟩

/-! ## The matching blocks form a common subsequence -/

theorem sub_length (a : List Char) (s n : Nat) (h : s + n ≤ a.length) :
    (sub a s n).length = n := by
  unfold sub
  rw [List.length_take, List.length_drop]
  omega

theorem mbF_spec (a b : List Char) :
    ∀ fuel alo ahi blo bhi, ahi ≤ a.length → bhi ≤ b.length →
      ∃ s : List Char,
        s.Sublist (sub a alo (ahi - alo)) ∧ s.Sublist (sub b blo (bhi - blo)) ∧
        s.length = ((matchingBlocksF a b fuel alo ahi blo bhi).map (fun r => r.2.2)).sum := by
  intro fuel
  induction fuel with
  | zero =>
    intro alo ahi blo bhi _ _
    exact ⟨[], List.nil_sublist _, List.nil_sublist _, by simp [matchingBlocksF]⟩
  | succ fuel ih =>
    intro alo ahi blo bhi haa hbb
    have hw := flm_spec a b alo ahi blo bhi haa hbb
    cases hflm : findLongestMatch a b alo ahi blo bhi with
    | mk i jk =>
      cases jk with
      | mk j k =>
        rw [hflm] at hw
        obtain ⟨hw1, hw2, hw3, hw4⟩ := hw
        dsimp only at hw1 hw2 hw3 hw4
        simp only [matchingBlocksF]
        rw [hflm]
        by_cases hg : k ≠ 0 ∧ alo ≤ i ∧ i + k ≤ ahi
        · rw [if_pos hg]
          obtain ⟨hk0, hai, hik⟩ := hg
          obtain ⟨_, hjk, hchars⟩ := hw4 hk0
          obtain ⟨s1, hs1a, hs1b, hl1⟩ := ih alo i blo j (by omega) (by omega)
          obtain ⟨s2, hs2a, hs2b, hl2⟩ := ih (i + k) ahi (j + k) bhi haa hbb
          refine ⟨s1 ++ (sub a i k ++ s2), ?_, ?_, ?_⟩
          · have hdec : sub a alo (ahi - alo) =
                sub a alo (i - alo) ++ (sub a i k ++ sub a (i + k) (ahi - (i + k))) := by
              have e1 : ahi - alo = (i - alo) + (k + (ahi - (i + k))) := by omega
              rw [e1, sub_append]
              have e2 : alo + (i - alo) = i := by omega
              rw [e2, sub_append]
            rw [hdec]
            exact hs1a.append ((List.Sublist.refl _).append hs2a)
          · have hdec : sub b blo (bhi - blo) =
                sub b blo (j - blo) ++ (sub b j k ++ sub b (j + k) (bhi - (j + k))) := by
              have e1 : bhi - blo = (j - blo) + (k + (bhi - (j + k))) := by omega
              rw [e1, sub_append]
              have e2 : blo + (j - blo) = j := by omega
              rw [e2, sub_append]
            rw [hdec, hchars]
            exact hs1b.append ((List.Sublist.refl _).append hs2b)
          · rw [List.length_append, List.length_append, sub_length a i k (by omega), hl1, hl2]
            simp only [List.map_append, List.sum_append, List.map_cons, List.sum_cons]
        · rw [if_neg hg]
          exact ⟨[], List.nil_sublist _, List.nil_sublist _, by simp⟩

/-- The total size of the matching blocks is realised by a common
subsequence of `a` and `b`. -/
theorem seqMatches_spec (a b : List Char) :
    ∃ s : List Char, s.Sublist a ∧ s.Sublist b ∧ s.length = seqMatches a b := by
  obtain ⟨s, h1, h2, h3⟩ :=
    mbF_spec a b (a.length - 0 + 1) 0 a.length 0 b.length (Nat.le_refl _) (Nat.le_refl _)
  rw [Nat.sub_zero] at h1 h2
  rw [sub_all] at h1
  rw [sub_all] at h2
  exact ⟨s, h1, h2, h3⟩

/-! ## Longest common subsequence lemmas -/

theorem sublist_le_lcsLen_aux :
    ∀ (n : Nat) (a b s : List Char), a.length + b.length ≤ n →
      s.Sublist a → s.Sublist b → s.length ≤ lcsLen a b := by
  intro n
  induction n with
  | zero =>
    intro a b s h ha hb
    have ha0 : a = [] := by
      cases a with
      | nil => rfl
      | cons x xs => simp [List.length_cons] at h
    subst ha0
    rw [List.sublist_nil.mp ha]
    simp [lcsLen_nil]
  | succ n ih =>
    intro a b s h ha hb
    match a, b with
    | [], _ =>
      rw [List.sublist_nil.mp ha]
      simp [lcsLen_nil]
    | x :: xs, [] =>
      rw [List.sublist_nil.mp hb]
      simp
    | x :: xs, y :: ys =>
      cases s with
      | nil => simp
      | cons z zs =>
        have hzx : zs.Sublist xs := by
          cases ha with
          | cons _ h1 => exact (List.sublist_cons_self z zs).trans h1
          | cons₂ _ h1 => exact h1
        have hzy : zs.Sublist ys := by
          cases hb with
          | cons _ h1 => exact (List.sublist_cons_self z zs).trans h1
          | cons₂ _ h1 => exact h1
        rw [lcsLen_cons_cons]
        by_cases hxy : x = y
        · rw [if_pos hxy]
          have hrec := ih xs ys zs (by simp [List.length_cons] at h ⊢; omega) hzx hzy
          simp only [List.length_cons]
          omega
        · rw [if_neg hxy]
          cases ha with
          | cons _ h1 =>
            have hrec := ih xs (y :: ys) (z :: zs)
              (by simp [List.length_cons] at h ⊢; omega) h1 hb
            omega
          | cons₂ _ h1 =>
            cases hb with
            | cons _ h2 =>
              have hrec := ih (x :: xs) ys (x :: zs)
                (by simp [List.length_cons] at h ⊢; omega) (List.Sublist.cons₂ x h1) h2
              omega
            | cons₂ _ h2 =>
              exact absurd rfl hxy

/-- Any common subsequence is no longer than the longest common
subsequence. -/
theorem sublist_le_lcsLen (s a b : List Char) (ha : s.Sublist a) (hb : s.Sublist b) :
    s.length ≤ lcsLen a b :=
  sublist_le_lcsLen_aux (a.length + b.length) a b s (Nat.le_refl _) ha hb

theorem lcsLen_achieved_aux :
    ∀ (n : Nat) (a b : List Char), a.length + b.length ≤ n →
      ∃ s : List Char, s.Sublist a ∧ s.Sublist b ∧ s.length = lcsLen a b := by
  intro n
  induction n with
  | zero =>
    intro a b h
    have ha0 : a = [] := by
      cases a with
      | nil => rfl
      | cons x xs => simp [List.length_cons] at h
    subst ha0
    exact ⟨[], List.nil_sublist _, List.nil_sublist _, by simp [lcsLen_nil]⟩
  | succ n ih =>
    intro a b h
    match a, b with
    | [], _ =>
      exact ⟨[], List.nil_sublist _, List.nil_sublist _, by simp [lcsLen_nil]⟩
    | x :: xs, [] =>
      exact ⟨[], List.nil_sublist _, List.nil_sublist _, by simp [lcsLen_cons_nil]⟩
    | x :: xs, y :: ys =>
      rw [lcsLen_cons_cons]
      by_cases hxy : x = y
      · subst hxy
        rw [if_pos rfl]
        obtain ⟨s, h1, h2, h3⟩ := ih xs ys (by simp [List.length_cons] at h ⊢; omega)
        exact ⟨x :: s, List.Sublist.cons₂ x h1, List.Sublist.cons₂ x h2, by
          simp [List.length_cons, h3]⟩
      · rw [if_neg hxy]
        by_cases hmax : lcsLen (x :: xs) ys ≤ lcsLen xs (y :: ys)
        · obtain ⟨s, h1, h2, h3⟩ := ih xs (y :: ys) (by simp [List.length_cons] at h ⊢; omega)
          refine ⟨s, List.Sublist.cons x h1, h2, ?_⟩
          have hm : max (lcsLen xs (y :: ys)) (lcsLen (x :: xs) ys) = lcsLen xs (y :: ys) := by
            omega
          rw [hm, h3]
        · obtain ⟨s, h1, h2, h3⟩ := ih (x :: xs) ys (by simp [List.length_cons] at h ⊢; omega)
          refine ⟨s, h1, List.Sublist.cons y h2, ?_⟩
          have hm : max (lcsLen xs (y :: ys)) (lcsLen (x :: xs) ys) = lcsLen (x :: xs) ys := by
            omega
          rw [hm, h3]

/-- The longest common subsequence length is achieved by an actual common
subsequence. -/
theorem lcsLen_achieved (a b : List Char) :
    ∃ s : List Char, s.Sublist a ∧ s.Sublist b ∧ s.length = lcsLen a b :=
  lcsLen_achieved_aux (a.length + b.length) a b (Nat.le_refl _)

theorem lcsLen_cons_left (x : Char) (xs b : List Char) :
    lcsLen xs b ≤ lcsLen (x :: xs) b := by
  obtain ⟨s, h1, h2, h3⟩ := lcsLen_achieved xs b
  rw [← h3]
  exact sublist_le_lcsLen s (x :: xs) b (List.Sublist.cons x h1) h2

theorem lcsLen_cons_right (y : Char) (a ys : List Char) :
    lcsLen a ys ≤ lcsLen a (y :: ys) := by
  obtain ⟨s, h1, h2, h3⟩ := lcsLen_achieved a ys
  rw [← h3]
  exact sublist_le_lcsLen s a (y :: ys) h1 (List.Sublist.cons y h2)

/-- The greedy matching of `SequenceMatcher` never beats the longest
common subsequence. -/
theorem seqMatches_le_lcsLen (a b : List Char) : seqMatches a b ≤ lcsLen a b := by
  obtain ⟨s, h1, h2, h3⟩ := seqMatches_spec a b
  rw [← h3]
  exact sublist_le_lcsLen s a b h1 h2

theorem seqMatches_le_left (a b : List Char) : seqMatches a b ≤ a.length := by
  obtain ⟨s, h1, _, h3⟩ := seqMatches_spec a b
  rw [← h3]
  exact h1.length_le

theorem seqMatches_le_right (a b : List Char) : seqMatches a b ≤ b.length := by
  obtain ⟨s, _, h2, h3⟩ := seqMatches_spec a b
  rw [← h3]
  exact h2.length_le

/-! ## The indel distance determines the LCS -/

theorem indel_add_two_lcs :
    ∀ (n : Nat) (a b : List Char), a.length + b.length ≤ n →
      indel a b + 2 * lcsLen a b = a.length + b.length := by
  intro n
  induction n with
  | zero =>
    intro a b h
    match a, b with
    | [], ys => simp [indel_nil, lcsLen_nil]
    | x :: xs, ys => simp [List.length_cons] at h
  | succ n ih =>
    intro a b h
    match a, b with
    | [], ys => simp [indel_nil, lcsLen_nil]
    | x :: xs, [] => simp [indel_cons_nil, lcsLen_cons_nil, List.length_cons]
    | x :: xs, y :: ys =>
      have ih1 := ih xs (y :: ys) (by simp [List.length_cons] at h ⊢; omega)
      have ih2 := ih (x :: xs) ys (by simp [List.length_cons] at h ⊢; omega)
      have ih3 := ih xs ys (by simp [List.length_cons] at h ⊢; omega)
      simp only [List.length_cons] at ih1 ih2 ih3
      rw [indel_cons_cons, lcsLen_cons_cons]
      by_cases hxy : x = y
      · rw [if_pos hxy, if_pos hxy]
        have hm1 : lcsLen xs (y :: ys) ≤ lcsLen xs ys + 1 := by
          have e : lcsLen (x :: xs) (y :: ys) = lcsLen xs ys + 1 := by
            rw [lcsLen_cons_cons, if_pos hxy]
          have := lcsLen_cons_left x xs (y :: ys)
          omega
        have hm2 : lcsLen (x :: xs) ys ≤ lcsLen xs ys + 1 := by
          have e : lcsLen (x :: xs) (y :: ys) = lcsLen xs ys + 1 := by
            rw [lcsLen_cons_cons, if_pos hxy]
          have := lcsLen_cons_right y (x :: xs) ys
          omega
        simp only [List.length_cons]
        omega
      · rw [if_neg hxy, if_neg hxy]
        have hm3 : lcsLen xs ys ≤ lcsLen xs (y :: ys) := lcsLen_cons_right y xs ys
        have hm4 : lcsLen xs (y :: ys) ≤ lcsLen (x :: xs) (y :: ys) := lcsLen_cons_left x xs (y :: ys)
        have hm5 : lcsLen (x :: xs) ys ≤ lcsLen (x :: xs) (y :: ys) := lcsLen_cons_right y (x :: xs) ys
        have e : lcsLen (x :: xs) (y :: ys) = max (lcsLen xs (y :: ys)) (lcsLen (x :: xs) ys) := by
          rw [lcsLen_cons_cons, if_neg hxy]
        simp only [List.length_cons]
        omega

/-- The identity `indel a b + 2 * lcsLen a b = |a| + |b|` underlying
`Levenshtein.ratio`. -/
theorem indel_eq (a b : List Char) :
    indel a b + 2 * lcsLen a b = a.length + b.length :=
  indel_add_two_lcs (a.length + b.length) a b (Nat.le_refl _)

/-! ## Similarity: rational-level facts -/

theorem similaritySM_empty (a b : String) (h : a.data.length + b.data.length = 0) :
    similaritySM a b = 1 := by
  unfold similaritySM calculateRatio
  rw [if_neg (by omega)]

theorem similarityLev_empty (a b : String) (h : a.data.length + b.data.length = 0) :
    similarityLev a b = 1 := by
  simp only [similarityLev]
  rw [if_neg (by omega)]

theorem similaritySM_eq (a b : String) (h : a.data.length + b.data.length ≠ 0) :
    similaritySM a b =
      2 * (seqMatches a.data b.data : ℚ) / ((a.data.length + b.data.length : Nat) : ℚ) := by
  unfold similaritySM calculateRatio
  rw [if_pos h]

theorem similarityLev_eq (a b : String) (h : a.data.length + b.data.length ≠ 0) :
    similarityLev a b =
      2 * (lcsLen a.data b.data : ℚ) / ((a.data.length + b.data.length : Nat) : ℚ) := by
  simp only [similarityLev]
  rw [if_pos h]
  have hIL := indel_eq a.data b.data
  have hnat : a.data.length + b.data.length - indel a.data b.data = 2 * lcsLen a.data b.data := by
    omega
  rw [hnat]
  push_cast
  ring

theorem totalLen_posQ (a b : String) (h : a.data.length + b.data.length ≠ 0) :
    (0 : ℚ) < ((a.data.length + b.data.length : Nat) : ℚ) := by
  exact_mod_cast Nat.pos_of_ne_zero h

theorem similaritySM_nonneg (a b : String) : 0 ≤ similaritySM a b := by
  by_cases h : a.data.length + b.data.length = 0
  · rw [similaritySM_empty a b h]
    norm_num
  · rw [similaritySM_eq a b h]
    have := totalLen_posQ a b h
    positivity

theorem similaritySM_le_one (a b : String) : similaritySM a b ≤ 1 := by
  by_cases h : a.data.length + b.data.length = 0
  · rw [similaritySM_empty a b h]
  · rw [similaritySM_eq a b h]
    rw [div_le_one (totalLen_posQ a b h)]
    have h1 := seqMatches_le_left a.data b.data
    have h2 := seqMatches_le_right a.data b.data
    have hM : 2 * seqMatches a.data b.data ≤ a.data.length + b.data.length := by omega
    exact_mod_cast hM

theorem similarityLev_nonneg (a b : String) : 0 ≤ similarityLev a b := by
  by_cases h : a.data.length + b.data.length = 0
  · rw [similarityLev_empty a b h]
    norm_num
  · rw [similarityLev_eq a b h]
    have := totalLen_posQ a b h
    positivity

theorem similarityLev_le_one (a b : String) : similarityLev a b ≤ 1 := by
  by_cases h : a.data.length + b.data.length = 0
  · rw [similarityLev_empty a b h]
  · rw [similarityLev_eq a b h]
    rw [div_le_one (totalLen_posQ a b h)]
    have hIL := indel_eq a.data b.data
    have hL : 2 * lcsLen a.data b.data ≤ a.data.length + b.data.length := by omega
    exact_mod_cast hL

/-! ## Claim C2 -/

/-- C2: for every pair of strings, each `similarity` implementation
returns a value in the closed interval `[0, 1]`, and (whenever the total
length `T` of the two strings is nonzero, so that the ratio `2*M/T` is a
well-defined number) the returned value equals `2*M/T`, where `M` is the
number of matched characters after alignment (the summed matching-block
sizes for the `SequenceMatcher` fallback; the longest-common-subsequence
length for `Levenshtein.ratio`) and `T` is the total length of both
strings.  For `T = 0` both implementations return `1` by convention. -/
theorem similarity_unit_interval_ratio (a b : String) :
    0 ≤ similaritySM a b ∧ similaritySM a b ≤ 1 ∧
    0 ≤ similarityLev a b ∧ similarityLev a b ≤ 1 ∧
    (a.data.length + b.data.length ≠ 0 →
      similaritySM a b =
        2 * (seqMatches a.data b.data : ℚ) / ((a.data.length + b.data.length : Nat) : ℚ) ∧
      similarityLev a b =
        2 * (lcsLen a.data b.data : ℚ) / ((a.data.length + b.data.length : Nat) : ℚ)) :=
  ⟨similaritySM_nonneg a b, similaritySM_le_one a b,
    similarityLev_nonneg a b, similarityLev_le_one a b,
    fun h => ⟨similaritySM_eq a b h, similarityLev_eq a b h⟩⟩

/-- Witness for `similarity_unit_interval_ratio` at the concrete pair
`("dat", "data")`: the hypothesis `T ≠ 0` holds and the fallback
similarity is `2*3/7 = 6/7`. -/
theorem similarity_unit_interval_ratio_witness :
    ("dat".data.length + "data".data.length ≠ 0) ∧
    similaritySM "dat" "data" =
      2 * (seqMatches "dat".data "data".data : ℚ) /
        (("dat".data.length + "data".data.length : Nat) : ℚ) ∧
    seqMatches "dat".data "data".data = 3 :=
  ⟨by decide, ((similarity_unit_interval_ratio "dat" "data").2.2.2.2 (by decide)).1, by decide⟩

/-! ## Claim C3 -/

/-- C3 counterexample: the two `similarity` implementations disagree at
`a = "xyxxx"`, `b = "xxxyx"`: `Levenshtein.ratio` gives `2*4/10 = 4/5`
(the longest common subsequence `xxxx` has length 4) while the
`SequenceMatcher` fallback gives `2*3/10 = 3/5` (its greedy first block
`xyx` blocks the better alignment).  So the claim that they agree on
every pair of strings is false. -/
theorem similarity_impls_differ :
    similarityLev "xyxxx" "xxxyx" = 4 / 5 ∧ similaritySM "xyxxx" "xxxyx" = 3 / 5 ∧
    similarityLev "xyxxx" "xxxyx" ≠ similaritySM "xyxxx" "xxxyx" := by
  have hM : seqMatches "xyxxx".data "xxxyx".data = 3 := by decide
  have hL : lcsLen "xyxxx".data "xxxyx".data = 4 := by decide
  have hT : "xyxxx".data.length + "xxxyx".data.length = 10 := by decide
  have h1 : similarityLev "xyxxx" "xxxyx" = 4 / 5 := by
    rw [similarityLev_eq "xyxxx" "xxxyx" (by decide), hL, hT]
    norm_num
  have h2 : similaritySM "xyxxx" "xxxyx" = 3 / 5 := by
    rw [similaritySM_eq "xyxxx" "xxxyx" (by decide), hM, hT]
    norm_num
  refine ⟨h1, h2, ?_⟩
  rw [h1, h2]
  norm_num

/-- C3 amended: the fallback (`SequenceMatcher`) similarity never exceeds
the accelerated (`Levenshtein.ratio`) similarity, because the greedy
matching realises a common subsequence while `Levenshtein.ratio` scores
the longest one; the two are not equal in general (see
`similarity_impls_differ`), so switching implementations is observable
beyond performance. -/
theorem similaritySM_le_similarityLev (a b : String) :
    similaritySM a b ≤ similarityLev a b := by
  by_cases h : a.data.length + b.data.length = 0
  · rw [similaritySM_empty a b h, similarityLev_empty a b h]
  · rw [similaritySM_eq a b h, similarityLev_eq a b h]
    have hT := totalLen_posQ a b h
    rw [div_le_div_iff_of_pos_right hT]
    have hML := seqMatches_le_lcsLen a.data b.data
    have h2 : 2 * seqMatches a.data b.data ≤ 2 * lcsLen a.data b.data := by omega
    exact_mod_cast h2

/-! ### Codec lemmas -/

theorem char_range (c : Char) :
    c.toNat < 0xD800 ∨ (0xE000 ≤ c.toNat ∧ c.toNat < 0x110000) := by
  have h := c.valid
  rcases h with h | h
  · left
    exact_mod_cast h
  · right
    exact ⟨by exact_mod_cast h.1, by exact_mod_cast h.2⟩

theorem toNat_ofNat_valid (n : Nat) (h : n.isValidChar) : (Char.ofNat n).toNat = n := by
  unfold Char.ofNat
  rw [dif_pos h]
  rfl

theorem isValidChar_of (n : Nat)
    (h : n < 0xD800 ∨ (0xE000 ≤ n ∧ n < 0x110000)) : n.isValidChar := h

theorem utf8EncodeChar_length (c : Char) :
    1 ≤ (utf8EncodeChar c).length ∧ (utf8EncodeChar c).length ≤ 4 := by
  unfold utf8EncodeChar
  dsimp only
  split_ifs <;> simp

/-- The strict decoder, applied to the encoding of a scalar followed by
anything, consumes exactly that encoding and returns exactly that
scalar. -/
theorem decodeStep_encodeChar (c : Char) (r : List Nat) :
    decodeStep (utf8EncodeChar c ++ r) = (some c, (utf8EncodeChar c).length) := by
  have hval := char_range c
  by_cases h1 : c.toNat < 0x80
  · have henc : utf8EncodeChar c = [c.toNat] := by
      unfold utf8EncodeChar
      rw [if_pos h1]
    rw [henc]
    simp only [List.cons_append, List.nil_append, decodeStep, if_pos h1,
      Char.ofNat_toNat, List.length_cons, List.length_nil]
  · by_cases h2 : c.toNat < 0x800
    · have henc : utf8EncodeChar c = [0xC0 + c.toNat / 64, 0x80 + c.toNat % 64] := by
        unfold utf8EncodeChar
        rw [if_neg h1, if_pos h2]
      rw [henc]
      simp only [List.cons_append, List.nil_append, decodeStep, List.length_cons,
        List.length_nil]
      rw [if_neg (by omega), if_neg (by omega), if_pos (by omega)]
      rw [if_pos (by omega : 0x80 ≤ 0x80 + c.toNat % 64 ∧ 0x80 + c.toNat % 64 < 0xC0)]
      have hv : (0xC0 + c.toNat / 64 - 0xC0) * 64 + (0x80 + c.toNat % 64 - 0x80) = c.toNat := by
        omega
      rw [hv, Char.ofNat_toNat]
    · by_cases h3 : c.toNat < 0x10000
      · have henc : utf8EncodeChar c =
            [0xE0 + c.toNat / 4096, 0x80 + c.toNat / 64 % 64, 0x80 + c.toNat % 64] := by
          unfold utf8EncodeChar
          rw [if_neg h1, if_neg h2, if_pos h3]
        rw [henc]
        simp only [List.cons_append, List.nil_append, decodeStep, List.length_cons,
          List.length_nil]
        rw [if_neg (by omega), if_neg (by omega), if_neg (by omega), if_pos (by omega)]
        have hcond : (if 0xE0 + c.toNat / 4096 = 0xE0 then 0xA0 else 0x80) ≤
            0x80 + c.toNat / 64 % 64 ∧
            0x80 + c.toNat / 64 % 64 < (if 0xE0 + c.toNat / 4096 = 0xED then 0xA0 else 0xC0) := by
          constructor
          · split_ifs with he
            · omega
            · omega
          · split_ifs with he
            · rcases hval with hv | hv
              · omega
              · omega
            · omega
        rw [if_pos hcond, if_pos (by omega : 0x80 ≤ 0x80 + c.toNat % 64 ∧ 0x80 + c.toNat % 64 < 0xC0)]
        have hv : (0xE0 + c.toNat / 4096 - 0xE0) * 4096 + (0x80 + c.toNat / 64 % 64 - 0x80) * 64 +
            (0x80 + c.toNat % 64 - 0x80) = c.toNat := by
          omega
        rw [hv, Char.ofNat_toNat]
      · have h4 : c.toNat < 0x110000 := by
          rcases hval with hv | hv
          · omega
          · omega
        have henc : utf8EncodeChar c =
            [0xF0 + c.toNat / 0x40000, 0x80 + c.toNat / 4096 % 64, 0x80 + c.toNat / 64 % 64,
              0x80 + c.toNat % 64] := by
          unfold utf8EncodeChar
          rw [if_neg h1, if_neg h2, if_neg h3]
        rw [henc]
        simp only [List.cons_append, List.nil_append, decodeStep, List.length_cons,
          List.length_nil]
        rw [if_neg (by omega), if_neg (by omega), if_neg (by omega), if_neg (by omega),
          if_pos (by omega)]
        have hcond : (if 0xF0 + c.toNat / 0x40000 = 0xF0 then 0x90 else 0x80) ≤
            0x80 + c.toNat / 4096 % 64 ∧
            0x80 + c.toNat / 4096 % 64 <
              (if 0xF0 + c.toNat / 0x40000 = 0xF4 then 0x90 else 0xC0) := by
          constructor
          · split_ifs with he
            · omega
            · omega
          · split_ifs with he
            · omega
            · omega
        rw [if_pos hcond,
          if_pos (by omega : 0x80 ≤ 0x80 + c.toNat / 64 % 64 ∧ 0x80 + c.toNat / 64 % 64 < 0xC0),
          if_pos (by omega : 0x80 ≤ 0x80 + c.toNat % 64 ∧ 0x80 + c.toNat % 64 < 0xC0)]
        have hv : (0xF0 + c.toNat / 0x40000 - 0xF0) * 0x40000 +
            (0x80 + c.toNat / 4096 % 64 - 0x80) * 4096 +
            (0x80 + c.toNat / 64 % 64 - 0x80) * 64 + (0x80 + c.toNat % 64 - 0x80) = c.toNat := by
          omega
        rw [hv, Char.ofNat_toNat]

theorem ignoreF_encode : ∀ (fuel : Nat) (cs : List Char),
    (cs.flatMap utf8EncodeChar).length ≤ fuel →
    utf8DecodeIgnoreF fuel (cs.flatMap utf8EncodeChar) = cs := by
  intro fuel
  induction fuel with
  | zero =>
    intro cs h
    cases cs with
    | nil => rfl
    | cons c cs2 =>
      exfalso
      have h1 := (utf8EncodeChar_length c).1
      simp only [List.flatMap_cons, List.length_append] at h
      omega
  | succ fuel ih =>
    intro cs h
    cases cs with
    | nil => rfl
    | cons c cs2 =>
      have hE := decodeStep_encodeChar c (cs2.flatMap utf8EncodeChar)
      have h1 := (utf8EncodeChar_length c).1
      cases henc : utf8EncodeChar c with
      | nil =>
        rw [henc] at h1
        simp at h1
      | cons b bs =>
        rw [henc] at hE
        simp only [List.cons_append] at hE
        simp only [List.flatMap_cons, henc, List.cons_append]
        simp only [utf8DecodeIgnoreF]
        rw [hE]
        simp only [List.length_cons, Nat.add_sub_cancel]
        rw [List.drop_left]
        rw [ih cs2 (by
          simp only [List.flatMap_cons, List.length_append, henc, List.length_cons] at h
          omega)]

/-- C10: a `write_file` followed by a `read_file` of the same path returns
exactly the written string.  (A Lean `String` is a sequence of unicode
scalar values, which are exactly the UTF-8-encodable strings the claim
quantifies over.) -/
theorem write_file_read_file_roundtrip (fs : FSb) (p s : String) :
    read_file (write_file fs p s) p = s := by
  unfold read_file write_file
  simp only [eq_self_iff_true, if_true, Option.getD_some]
  unfold utf8DecodeIgnore utf8Encode
  rw [ignoreF_encode (s.data.flatMap utf8EncodeChar).length s.data (Nat.le_refl _)]

/-- A successful strict decode step consumes exactly the UTF-8 encoding of
the scalar it returns. -/
theorem decodeStep_some :
    ∀ (l : List Nat) (c : Char) (n : Nat), decodeStep l = (some c, n) →
      utf8EncodeChar c = l.take n ∧ 1 ≤ n ∧ n ≤ l.length := by
  intro l c n h
  match l with
  | [] => simp [decodeStep] at h
  | b0 :: rest =>
    by_cases h1 : b0 < 0x80
    · simp only [decodeStep, if_pos h1] at h
      simp only [Prod.mk.injEq, Option.some.injEq] at h
      obtain ⟨hc, hn⟩ := h
      subst hc
      subst hn
      refine ⟨?_, by omega, by simp⟩
      have ht : (Char.ofNat b0).toNat = b0 := toNat_ofNat_valid b0 (isValidChar_of b0 (by omega))
      unfold utf8EncodeChar
      dsimp only
      rw [ht, if_pos h1]
      rfl
    · by_cases h2 : b0 < 0xC2
      · simp only [decodeStep, if_neg h1, if_pos h2] at h
        simp at h
      · by_cases h3 : b0 < 0xE0
        · simp only [decodeStep, if_neg h1, if_neg h2, if_pos h3] at h
          match rest with
          | [] => simp at h
          | b1 :: rest1 =>
            dsimp only at h
            by_cases h4 : 0x80 ≤ b1 ∧ b1 < 0xC0
            · rw [if_pos h4] at h
              simp only [Prod.mk.injEq, Option.some.injEq] at h
              obtain ⟨hc, hn⟩ := h
              subst hc
              subst hn
              refine ⟨?_, by omega, by simp [List.length_cons]⟩
              have hvr : (b0 - 0xC0) * 64 + (b1 - 0x80) < 0xD800 := by omega
              have ht := toNat_ofNat_valid ((b0 - 0xC0) * 64 + (b1 - 0x80))
                (isValidChar_of _ (Or.inl hvr))
              unfold utf8EncodeChar
              dsimp only
              rw [ht, if_neg (by omega), if_pos (by omega)]
              have e1 : 0xC0 + ((b0 - 0xC0) * 64 + (b1 - 0x80)) / 64 = b0 := by omega
              have e2 : 0x80 + ((b0 - 0xC0) * 64 + (b1 - 0x80)) % 64 = b1 := by omega
              rw [e1, e2]
              rfl
            · rw [if_neg h4] at h
              simp at h
        · by_cases h5 : b0 < 0xF0
          · simp only [decodeStep, if_neg h1, if_neg h2, if_neg h3, if_pos h5] at h
            match rest with
            | [] => simp at h
            | b1 :: rest1 =>
              dsimp only at h
              by_cases h6 : (if b0 = 0xE0 then 0xA0 else 0x80) ≤ b1 ∧
                  b1 < (if b0 = 0xED then 0xA0 else 0xC0)
              · rw [if_pos h6] at h
                match rest1 with
                | [] => simp at h
                | b2 :: rest2 =>
                  dsimp only at h
                  by_cases h7 : 0x80 ≤ b2 ∧ b2 < 0xC0
                  · rw [if_pos h7] at h
                    simp only [Prod.mk.injEq, Option.some.injEq] at h
                    obtain ⟨hc, hn⟩ := h
                    subst hc
                    subst hn
                    refine ⟨?_, by omega, by simp [List.length_cons]⟩
                    obtain ⟨h6a, h6b⟩ := h6
                    have hlow : 0x800 ≤ (b0 - 0xE0) * 4096 + (b1 - 0x80) * 64 + (b2 - 0x80) := by
                      by_cases hE0 : b0 = 0xE0
                      · rw [if_pos hE0] at h6a
                        omega
                      · omega
                    have hval : (b0 - 0xE0) * 4096 + (b1 - 0x80) * 64 + (b2 - 0x80) < 0xD800 ∨
                        (0xE000 ≤ (b0 - 0xE0) * 4096 + (b1 - 0x80) * 64 + (b2 - 0x80) ∧
                          (b0 - 0xE0) * 4096 + (b1 - 0x80) * 64 + (b2 - 0x80) < 0x110000) := by
                      by_cases hED : b0 = 0xED
                      · rw [if_pos hED] at h6b
                        omega
                      · rw [if_neg hED] at h6b
                        omega
                    have hb1a : 0x80 ≤ b1 := by
                      split_ifs at h6a <;> omega
                    have hb1b : b1 < 0xC0 := by
                      split_ifs at h6b <;> omega
                    have ht := toNat_ofNat_valid ((b0 - 0xE0) * 4096 + (b1 - 0x80) * 64 + (b2 - 0x80))
                      (isValidChar_of _ hval)
                    unfold utf8EncodeChar
                    dsimp only
                    rw [ht, if_neg (by omega), if_neg (by omega), if_pos (by omega)]
                    have e1 : 0xE0 + ((b0 - 0xE0) * 4096 + (b1 - 0x80) * 64 + (b2 - 0x80)) / 4096 = b0 := by
                      omega
                    have e2 : 0x80 + ((b0 - 0xE0) * 4096 + (b1 - 0x80) * 64 + (b2 - 0x80)) / 64 % 64 = b1 := by
                      omega
                    have e3 : 0x80 + ((b0 - 0xE0) * 4096 + (b1 - 0x80) * 64 + (b2 - 0x80)) % 64 = b2 := by
                      omega
                    rw [e1, e2, e3]
                    rfl
                  · rw [if_neg h7] at h
                    simp at h
              · rw [if_neg h6] at h
                simp at h
          · by_cases h8 : b0 < 0xF5
            · simp only [decodeStep, if_neg h1, if_neg h2, if_neg h3, if_neg h5, if_pos h8] at h
              match rest with
              | [] => simp at h
              | b1 :: rest1 =>
                dsimp only at h
                by_cases h9 : (if b0 = 0xF0 then 0x90 else 0x80) ≤ b1 ∧
                    b1 < (if b0 = 0xF4 then 0x90 else 0xC0)
                · rw [if_pos h9] at h
                  match rest1 with
                  | [] => simp at h
                  | b2 :: rest2 =>
                    dsimp only at h
                    by_cases h10 : 0x80 ≤ b2 ∧ b2 < 0xC0
                    · rw [if_pos h10] at h
                      match rest2 with
                      | [] => simp at h
                      | b3 :: rest3 =>
                        dsimp only at h
                        by_cases h11 : 0x80 ≤ b3 ∧ b3 < 0xC0
                        · rw [if_pos h11] at h
                          simp only [Prod.mk.injEq, Option.some.injEq] at h
                          obtain ⟨hc, hn⟩ := h
                          subst hc
                          subst hn
                          refine ⟨?_, by omega, by simp [List.length_cons]⟩
                          obtain ⟨h9a, h9b⟩ := h9
                          have hlow : 0x10000 ≤ (b0 - 0xF0) * 0x40000 + (b1 - 0x80) * 4096 +
                              (b2 - 0x80) * 64 + (b3 - 0x80) := by
                            by_cases hF0 : b0 = 0xF0
                            · rw [if_pos hF0] at h9a
                              omega
                            · omega
                          have hhigh : (b0 - 0xF0) * 0x40000 + (b1 - 0x80) * 4096 +
                              (b2 - 0x80) * 64 + (b3 - 0x80) < 0x110000 := by
                            by_cases hF4 : b0 = 0xF4
                            · rw [if_pos hF4] at h9b
                              omega
                            · rw [if_neg hF4] at h9b
                              omega
                          have hb1a : 0x80 ≤ b1 := by
                            split_ifs at h9a <;> omega
                          have hb1b : b1 < 0xC0 := by
                            split_ifs at h9b <;> omega
                          have ht := toNat_ofNat_valid
                            ((b0 - 0xF0) * 0x40000 + (b1 - 0x80) * 4096 + (b2 - 0x80) * 64 + (b3 - 0x80))
                            (isValidChar_of _ (Or.inr ⟨by omega, hhigh⟩))
                          unfold utf8EncodeChar
                          dsimp only
                          rw [ht, if_neg (by omega), if_neg (by omega), if_neg (by omega)]
                          have e1 : 0xF0 + ((b0 - 0xF0) * 0x40000 + (b1 - 0x80) * 4096 +
                              (b2 - 0x80) * 64 + (b3 - 0x80)) / 0x40000 = b0 := by omega
                          have e2 : 0x80 + ((b0 - 0xF0) * 0x40000 + (b1 - 0x80) * 4096 +
                              (b2 - 0x80) * 64 + (b3 - 0x80)) / 4096 % 64 = b1 := by omega
                          have e3 : 0x80 + ((b0 - 0xF0) * 0x40000 + (b1 - 0x80) * 4096 +
                              (b2 - 0x80) * 64 + (b3 - 0x80)) / 64 % 64 = b2 := by omega
                          have e4 : 0x80 + ((b0 - 0xF0) * 0x40000 + (b1 - 0x80) * 4096 +
                              (b2 - 0x80) * 64 + (b3 - 0x80)) % 64 = b3 := by omega
                          rw [e1, e2, e3, e4]
                          rfl
                        · rw [if_neg h11] at h
                          simp at h
                    · rw [if_neg h10] at h
                      simp at h
                · rw [if_neg h9] at h
                  simp at h
            · simp only [decodeStep, if_neg h1, if_neg h2, if_neg h3, if_neg h5, if_neg h8] at h
              simp at h

theorem ignoreF_embed : ∀ (fuel : Nat) (l : List Nat),
    ((utf8DecodeIgnoreF fuel l).flatMap utf8EncodeChar).Sublist l := by
  intro fuel
  induction fuel with
  | zero =>
    intro l
    simp only [utf8DecodeIgnoreF, List.flatMap_nil]
    exact List.nil_sublist l
  | succ fuel ih =>
    intro l
    cases l with
    | nil =>
      simp only [utf8DecodeIgnoreF, List.flatMap_nil]
      exact List.nil_sublist []
    | cons b rest =>
      cases hds : decodeStep (b :: rest) with
      | mk o n =>
        cases o with
        | some c =>
          obtain ⟨henc, hn1, hnl⟩ := decodeStep_some (b :: rest) c n hds
          simp only [utf8DecodeIgnoreF]
          rw [hds]
          simp only [List.flatMap_cons]
          have hdrop : rest.drop (n - 1) = (b :: rest).drop n := by
            cases n with
            | zero => omega
            | succ m => simp [List.drop_succ_cons]
          rw [hdrop, henc]
          conv_rhs => rw [← List.take_append_drop n (b :: rest)]
          exact (List.Sublist.refl _).append (ih _)
        | none =>
          simp only [utf8DecodeIgnoreF]
          rw [hds]
          exact (ih _).trans ((List.drop_sublist _ _).trans (List.sublist_cons_self b rest))

/-- C9: `read_file` never fails on undecodable bytes: for every stored
byte content (valid UTF-8 or not) it returns a string, and that string is
a best-effort decode in the precise sense that its UTF-8 encoding is a
subsequence of the stored bytes (invalid bytes are dropped, nothing is
invented, and no exception path exists). -/
theorem read_file_never_fatal (fs : FSb) (p : String) (bytes : List Nat)
    (h : fs p = some bytes) :
    (utf8Encode (read_file fs p)).Sublist bytes := by
  unfold read_file utf8Encode utf8DecodeIgnore
  rw [h, Option.getD_some]
  exact ignoreF_embed bytes.length bytes

/-- Witness for `read_file_never_fatal` at a concrete non-UTF-8 content:
the byte `0xFF` can never occur in UTF-8, yet `read_file` returns `"hi"`
(the decodable part) rather than failing. -/
theorem read_file_never_fatal_witness :
    ((fun _ => some [104, 255, 105] : FSb) "f.py" = some [104, 255, 105]) ∧
    (utf8Encode (read_file (fun _ => some [104, 255, 105]) "f.py")).Sublist [104, 255, 105] ∧
    read_file (fun _ => some [104, 255, 105]) "f.py" = "hi" :=
  ⟨rfl, read_file_never_fatal (fun _ => some [104, 255, 105]) "f.py" [104, 255, 105] rfl,
    by decide⟩

/-- C7: when the executable of a (nonempty) command is missing, `runCmd`
does not raise (it is a total function): it returns exactly the triple
`(127, "", "Command not found: <name>")` and its log records the
invocation plus a warning, so the orchestrator can continue with the
remaining tools.  (The source names this function with a snake-case
name that is a reserved command token in Lean, hence `runCmd`.) -/
theorem runCmd_missing_tool (exec : List String → ProcOutcome) (name : String)
    (args : List String) (h : exec (name :: args) = none) :
    runCmd exec (name :: args) =
      ((127, "", "Command not found: " ++ name),
        [LogLine.info ("EXEC: " ++ String.intercalate " " (name :: args)),
          LogLine.warning ("Command not found: " ++ name)]) := by
  unfold runCmd
  rw [h]
  rfl

/-- Witness for `runCmd_missing_tool`: an `exec` oracle with no binaries
at all, invoked as `ruff <root>`. -/
theorem runCmd_missing_tool_witness :
    runCmd (fun _ => (none : ProcOutcome)) ["ruff", "proj"] =
      ((127, "", "Command not found: ruff"),
        [LogLine.info "EXEC: ruff proj", LogLine.warning "Command not found: ruff"]) :=
  (runCmd_missing_tool (fun _ => (none : ProcOutcome)) "ruff" ["proj"] rfl).trans (by decide)

/-- C8: `find_python_files` returns exactly the entries whose name
matches `*.py` and none of whose path segments is `venv`, `.venv` or
`site-packages`: membership in the result is equivalent to that
condition (soundness and completeness). -/
theorem find_python_files_spec (entries : List (List String)) (p : List String) :
    p ∈ find_python_files entries ↔
      p ∈ entries ∧ (p.getLastD "").endsWith ".py" ∧
        "venv" ∉ p ∧ ".venv" ∉ p ∧ "site-packages" ∉ p := by
  unfold find_python_files rglobPy matchesPyGlob
  simp only [List.mem_filter, Bool.and_eq_true, decide_eq_true_eq]
  tauto

theorem candBefore_score_le (errLine : Nat) (c1 c2 : Candidate)
    (h : candBefore errLine c1 c2 = true) : c2.score ≤ c1.score := by
  simp only [candBefore, Bool.or_eq_true, Bool.and_eq_true, decide_eq_true_eq] at h
  rcases h with h | ⟨h, _⟩
  · exact le_of_lt h
  · exact le_of_eq h.symm

theorem candBefore_total (errLine : Nat) (c1 c2 : Candidate) :
    (candBefore errLine c1 c2 || candBefore errLine c2 c1) = true := by
  simp only [candBefore, Bool.or_eq_true, Bool.and_eq_true, decide_eq_true_eq]
  rcases lt_trichotomy c1.score c2.score with h | h | h
  · exact Or.inr (Or.inl h)
  · rcases Nat.lt_trichotomy (lineDist errLine c1) (lineDist errLine c2) with h2 | h2 | h2
    · exact Or.inl (Or.inr ⟨h, Or.inl h2⟩)
    · rcases le_total c1.ident c2.ident with h3 | h3
      · exact Or.inl (Or.inr ⟨h, Or.inr ⟨h2, h3⟩⟩)
      · exact Or.inr (Or.inr ⟨h.symm, Or.inr ⟨h2.symm, h3⟩⟩)
    · exact Or.inr (Or.inr ⟨h.symm, Or.inl h2⟩)
  · exact Or.inl (Or.inl h)

theorem candBefore_trans (errLine : Nat) (a b c : Candidate)
    (h1 : candBefore errLine a b = true) (h2 : candBefore errLine b c = true) :
    candBefore errLine a c = true := by
  simp only [candBefore, Bool.or_eq_true, Bool.and_eq_true, decide_eq_true_eq] at h1 h2 ⊢
  rcases h1 with h1 | ⟨h1e, h1r⟩
  · rcases h2 with h2 | ⟨h2e, _⟩
    · exact Or.inl (lt_trans h2 h1)
    · exact Or.inl (h2e ▸ h1)
  · rcases h2 with h2 | ⟨h2e, h2r⟩
    · exact Or.inl (h1e ▸ h2)
    · refine Or.inr ⟨h1e.trans h2e, ?_⟩
      rcases h1r with h1d | ⟨h1d, h1i⟩
      · rcases h2r with h2d | ⟨h2d, _⟩
        · exact Or.inl (Nat.lt_trans h1d h2d)
        · exact Or.inl (h2d ▸ h1d)
      · rcases h2r with h2d | ⟨h2d, h2i⟩
        · exact Or.inl (h1d ▸ h2d)
        · exact Or.inr ⟨h1d.trans h2d, le_trans h1i h2i⟩

/-- The head of the ranking is a candidate of maximal score. -/
theorem rank_head_max (errLine : Nat) (cands : List Candidate) (c : Candidate)
    (rest : List Candidate) (h : rank errLine cands = c :: rest) :
    c ∈ cands ∧ ∀ d ∈ cands, d.score ≤ c.score := by
  unfold rank at h
  have hperm := List.mergeSort_perm cands (candBefore errLine)
  have hsorted := List.sorted_mergeSort (candBefore_trans errLine) (candBefore_total errLine) cands
  cases hms : cands.mergeSort (candBefore errLine) with
  | nil =>
    rw [hms] at h
    simp at h
  | cons c0 tl =>
    rw [hms] at h
    simp only [List.take_succ_cons, List.cons.injEq] at h
    obtain ⟨hc0, _⟩ := h
    rw [hms] at hperm hsorted
    rw [List.pairwise_cons] at hsorted
    rw [← hc0]
    constructor
    · exact hperm.mem_iff.mp (List.mem_cons_self c0 tl)
    · intro d hd
      have hd2 : d ∈ c0 :: tl := hperm.mem_iff.mpr hd
      rcases List.mem_cons.mp hd2 with hdc | hdt
      · rw [hdc]
      · exact candBefore_score_le errLine c0 d (hsorted.1 d hdt)

/-- C1: the Similarity Resolver accepts only under the double threshold,
and never when the top two scores are separated by less than `0.05`.
Part one: a returned candidate is a top-scoring member of the candidate
set with score at least `0.80`, and whenever the ranking has a
second-best, the returned score exceeds it by at least `0.05`.  Part
two: whenever the top two ranked scores differ by less than `0.05`,
`resolve` returns no candidate — even if the top score is `≥ 0.80`. -/
theorem resolve_double_threshold (errLine : Nat) (cands : List Candidate) :
    (∀ c, resolve errLine cands = some c →
      c ∈ cands ∧ (∀ d ∈ cands, d.score ≤ c.score) ∧ 4 / 5 ≤ c.score ∧
        ∀ c2 r, rank errLine cands = c :: c2 :: r → c2.score + 1 / 20 ≤ c.score) ∧
    (∀ c1 c2 r, rank errLine cands = c1 :: c2 :: r →
      c1.score - c2.score < 1 / 20 → resolve errLine cands = none) := by
  constructor
  · intro c hres
    unfold resolve at hres
    cases hrank : rank errLine cands with
    | nil =>
      rw [hrank] at hres
      simp at hres
    | cons c1 tl =>
      cases tl with
      | nil =>
        rw [hrank] at hres
        dsimp only at hres
        split_ifs at hres with hcond
        simp only [Option.some.injEq] at hres
        obtain ⟨hmem, hmax⟩ := rank_head_max errLine cands c1 [] hrank
        rw [← hres]
        refine ⟨hmem, hmax, hcond, ?_⟩
        intro c2 r hr
        simp at hr
      | cons c2 tl2 =>
        rw [hrank] at hres
        dsimp only at hres
        split_ifs at hres with hcond
        simp only [Option.some.injEq] at hres
        obtain ⟨hmem, hmax⟩ := rank_head_max errLine cands c1 (c2 :: tl2) hrank
        rw [← hres]
        refine ⟨hmem, hmax, hcond.1, ?_⟩
        intro c2x r hr
        simp only [List.cons.injEq] at hr
        obtain ⟨-, hc2, -⟩ := hr
        rw [← hc2]
        linarith [hcond.2]
  · intro c1 c2 r hrank hlt
    unfold resolve
    rw [hrank]
    dsimp only
    rw [if_neg]
    intro hcond
    linarith [hcond.2]

/-- Witness for `resolve_double_threshold` at the specification's own
example: candidates scored `{"data": 0.91, "value": 0.40}` (for the
unresolved identifier `dta`): `resolve` accepts `data`, which is a
maximal-score member of the set with score at least `0.80`. -/
theorem resolve_double_threshold_witness :
    resolve 5 [⟨"data", 91 / 100, 3⟩, ⟨"value", 2 / 5, 7⟩] =
      some (Candidate.mk "data" (91 / 100) 3) ∧
    (4 : ℚ) / 5 ≤ (Candidate.mk "data" (91 / 100) 3).score ∧
    Candidate.mk "data" (91 / 100) 3 ∈
      [Candidate.mk "data" (91 / 100) 3, Candidate.mk "value" (2 / 5) 7] := by
  have hle : candBefore 5 (Candidate.mk "data" (91 / 100) 3) (Candidate.mk "value" (2 / 5) 7) = true := by
    simp only [candBefore, Bool.or_eq_true, Bool.and_eq_true, decide_eq_true_eq]
    left
    norm_num
  have hms : [Candidate.mk "data" (91 / 100) 3, Candidate.mk "value" (2 / 5) 7].mergeSort
      (candBefore 5) = [Candidate.mk "data" (91 / 100) 3, Candidate.mk "value" (2 / 5) 7] := by
    simp [List.mergeSort, hle]
  have hrk : rank 5 [Candidate.mk "data" (91 / 100) 3, Candidate.mk "value" (2 / 5) 7] =
      [Candidate.mk "data" (91 / 100) 3, Candidate.mk "value" (2 / 5) 7] := by
    unfold rank
    rw [hms]
    rfl
  have hres : resolve 5 [Candidate.mk "data" (91 / 100) 3, Candidate.mk "value" (2 / 5) 7] =
      some (Candidate.mk "data" (91 / 100) 3) := by
    unfold resolve
    rw [hrk]
    dsimp only
    rw [if_pos]
    constructor
    · norm_num
    · norm_num
  have h := (resolve_double_threshold 5
    [Candidate.mk "data" (91 / 100) 3, Candidate.mk "value" (2 / 5) 7]).1
    (Candidate.mk "data" (91 / 100) 3) hres
  exact ⟨hres, h.2.2.1, h.1⟩

/-- C4: a patch whose `old_text` no longer matches the live content at
apply time is skipped as stale and the file system is returned
unchanged, byte for byte (the same state, no forced write). -/
theorem apply_stale_skips (p : Patch) (fs : FSt)
    (h : ∀ content, fs p.filePath = some content →
      spanAt content p.lineNumber p.colStart p.colEnd ≠ some p.oldText) :
    apply_patch p fs = (ApplyResult.skipped SkipReason.stale, fs) := by
  unfold apply_patch
  cases hc : fs p.filePath with
  | none => rfl
  | some content =>
    dsimp only
    rw [if_neg (h content hc)]

/-- Witness for `apply_stale_skips`: the live line is `x = daat + 1`, the
patch expects `dat` at columns 4-7 but the span now reads `daa`. -/
theorem apply_stale_skips_witness :
    apply_patch (Patch.mk "a.py" 1 4 7 "dat" "data")
        (fun q => if q = "a.py" then some "x = daat + 1" else none) =
      (ApplyResult.skipped SkipReason.stale,
        fun q => if q = "a.py" then some "x = daat + 1" else none) :=
  apply_stale_skips (Patch.mk "a.py" 1 4 7 "dat" "data")
    (fun q => if q = "a.py" then some "x = daat + 1" else none)
    (by
      intro content hc
      simp only [eq_self_iff_true, if_true, Option.some.injEq] at hc
      rw [← hc]
      decide)

/-- C5: on malformed input — any text in which no line matches either of
the two recognised error shapes — the parser yields the empty list of
diagnostics (and, being a total function, raises no exception). -/
theorem parser_malformed_empty (text : String)
    (h : ∀ l ∈ linesOf text, parseNameError l = none ∧ parseAttrError l = none) :
    parseTraceback text = [] := by
  unfold parseTraceback
  rw [List.filterMap_eq_nil_iff]
  intro i hi
  match i with
  | 0 => rfl
  | k + 1 =>
    have hiv : k + 1 < (linesOf text).length := List.mem_range.mp hi
    have hmem : (linesOf text).getD (k + 1) "" ∈ linesOf text := by
      rw [List.getD_eq_getElem _ _ hiv]
      exact List.getElem_mem hiv
    obtain ⟨h1, h2⟩ := h _ hmem
    have herr : parseErrLine ((linesOf text).getD (k + 1) "") = none := by
      unfold parseErrLine
      rw [h1, h2]
    dsimp only
    rw [herr]
    cases parseFileLine ((linesOf text).getD k "") <;> rfl

/-- Witness for `parser_malformed_empty` on a concrete malformed blob:
no line matches either shape, so no diagnostics are produced. -/
theorem parser_malformed_empty_witness :
    (∀ l ∈ linesOf "garbage output\nTypeError: nope\nsome other line",
      parseNameError l = none ∧ parseAttrError l = none) ∧
    parseTraceback "garbage output\nTypeError: nope\nsome other line" = [] :=
  ⟨by decide, parser_malformed_empty "garbage output\nTypeError: nope\nsome other line"
    (by decide)⟩

/-- C6: in dry-run mode (`--yes` absent, `applyYes = false`) the
orchestrator never mutates any file: the final file system equals the
initial one, for every scope index, every list of diagnostics and every
starting state — regardless of how many confident candidates are
found. -/
theorem dry_run_never_writes (scope : Diagnostic → List Candidate)
    (diags : List Diagnostic) (st : OrchState) :
    (orchestrate false scope diags st).fs = st.fs := by
  induction diags generalizing st with
  | nil => rfl
  | cons d ds ih =>
    show (orchestrate false scope ds (processDiag false scope st d)).fs = st.fs
    rw [ih]
    unfold processDiag
    cases resolve d.line (scope d) with
    | some c => rfl
    | none => rfl

end Rowts
